import Mathlib

/-!
Shallow embedding of `pypodio2/encode.py` (a multipart/form-data encoder).

Bytes are modelled as `List Nat`; text values appear as their UTF-8 byte
sequences, so the UTF-8 byte length of a text value is the length of the
list.  File-like objects (`fileobj`) are modelled as the list of chunks that
successive `read()` calls return (an empty read signals end of file, exactly
as the Python loop treats it), together with a cursor; `seek(0)` resets the
cursor.  Generators are modelled as functions returning the full list of
yielded blocks together with the list of `(current, total)` pairs passed to
the progress callback, and `raise` is modelled with `Except`.
-/

abbrev Bytes := List Nat

deriving instance DecidableEq for Except

def strB (s : String) : Bytes := s.data.map Char.toNat

def crlf : Bytes := [13, 10]

def hexDigit (d : Nat) : Nat := if d < 10 then 48 + d else 55 + d

/-- One byte of Python's `urllib.parse.quote_plus`: bytes in the always-safe
set (letters, digits, `_`, `.`, `-`, `~`) are kept, a space becomes `+`, and
anything else becomes an uppercase percent escape. -/
def quoteByte (b : Nat) : Bytes :=
  if (65 ≤ b ∧ b ≤ 90) ∨ (97 ≤ b ∧ b ≤ 122) ∨ (48 ≤ b ∧ b ≤ 57) ∨
      b = 95 ∨ b = 46 ∨ b = 45 ∨ b = 126 then [b]
  else if b = 32 then [43]
  else [37, hexDigit (b / 16 % 16), hexDigit (b % 16)]

/-- Model of `encode_and_quote` (`urllib.parse.quote_plus` over the UTF-8
bytes of the argument). -/
def encode_and_quote (b : Bytes) : Bytes := (b.map quoteByte).flatten

/-- A file-like object: the chunks its successive `read()` calls return, and
a cursor.  `seek(0)` sets the cursor back to `0`. -/
structure FileObj where
  chunks : List Bytes
  pos : Nat
deriving DecidableEq, Repr

def FileObj.readAll (f : FileObj) : Bytes × FileObj :=
  ((f.chunks.drop f.pos).flatten, { f with pos := f.chunks.length })

/-- Model of the `MultipartParam` attributes after `__init__`: `name`,
`filename`, `filetype` hold the already-escaped ASCII text the constructor
computes, `value` the UTF-8 bytes of the text value. -/
structure MultipartParam where
  name : Bytes
  value : Option Bytes := none
  filename : Option Bytes := none
  filetype : Option Bytes := none
  filesize : Option Nat := none
  fileobj : Option FileObj := none
deriving DecidableEq, Repr

def defaultContentType : Bytes := strB "text/plain; charset=utf-8"

/-- Model of `MultipartParam.encode_hdr`.  Mirrors the Python exactly: the
boundary is first passed through `encode_and_quote`, the `filename` clause is
added only when `self.filename` is truthy (present and nonempty), a falsy
`filetype` falls back to the default, and the five header lines (the last two
empty) are joined with CRLF. -/
def MultipartParam.encode_hdr (p : MultipartParam) (boundary : Bytes) : Bytes :=
  let qboundary := encode_and_quote boundary
  let disposition : Bytes :=
    match p.filename with
    | some fn =>
        if fn.isEmpty then strB "form-data; name=\"" ++ p.name ++ strB "\""
        else strB "form-data; name=\"" ++ p.name ++ strB "\"; filename=\"" ++
          fn ++ strB "\""
    | none => strB "form-data; name=\"" ++ p.name ++ strB "\""
  let ctype : Bytes :=
    match p.filetype with
    | some t => if t.isEmpty then defaultContentType else t
    | none => defaultContentType
  List.intercalate crlf
    [strB "--" ++ qboundary,
     strB "Content-Disposition: " ++ disposition,
     strB "Content-Type: " ++ ctype,
     [], []]

def headOk (u : Bytes) : Bool := u.isEmpty || u.getLast? == some 10

def tailOk (v : Bytes) : Bool := v.isEmpty || v.head? == some 10

/-- Model of `re.search(b"^" + re.escape(t) + b"$", s, re.M)` for a literal
pattern `t`: is there a position in `s` where `t` occurs, preceded by the
start of the data or a newline byte, and followed by the end of the data or a
newline byte? -/
def lineSearch (t s : Bytes) : Bool :=
  (List.range (s.length + 1)).any fun i =>
    ((s.drop i).take t.length == t) && headOk (s.take i) &&
      tailOk (s.drop (i + t.length))

/-- Plain substring occurrence (no anchors), used to state how the
line-anchored check differs from a general substring search. -/
def occursIn (t s : Bytes) : Bool :=
  (List.range (s.length + 1)).any fun i => (s.drop i).take t.length == t

/-- The errors the encoder can raise.  Python raises `ValueError` (or
crashes) in all these situations; the spec's taxonomy names them apart, and
so do we. -/
inductive EncErr where
  | boundaryCollision
  | fault
  | resetError
deriving DecidableEq, Repr

/-- Model of `MultipartParam.encode`.  Note the inline collision check uses
the boundary exactly as passed (`boundary.encode()` in the source), not its
`encode_and_quote` form. -/
def MultipartParam.encode (p : MultipartParam) (boundary : Bytes) :
    Except EncErr (Bytes × MultipartParam) :=
  match p.value with
  | none =>
    match p.fileobj with
    | none => .error .fault
    | some f =>
      let (v, f') := f.readAll
      .ok (p.encode_hdr boundary ++ v ++ crlf, { p with fileobj := some f' })
  | some v =>
    if lineSearch (strB "--" ++ boundary) v then .error .boundaryCollision
    else .ok (p.encode_hdr boundary ++ v ++ crlf, p)

/-- Model of `MultipartParam.get_size`; `none` models the Python crash when
neither `filesize` nor `value` is available. -/
def MultipartParam.get_size (p : MultipartParam) (boundary : Bytes) : Option Nat :=
  match p.filesize with
  | some n => some ((p.encode_hdr boundary).length + 2 + n)
  | none =>
    match p.value with
    | some v => some ((p.encode_hdr boundary).length + 2 + v.length)
    | none => none

/-- The buffer truncation `last_block = last_block[-len(encoded_boundary)-2:]`
of `iter_encode`: keep the last `t.length + 2` bytes, where `t` is the
encoded boundary line `b"--" + encode_and_quote(boundary)`. -/
def collisionWindow (t lb : Bytes) : Bytes := lb.drop (lb.length - (t.length + 2))

/-- Model of the `while True` read loop of `MultipartParam.iter_encode` (file
branch).  `t` is `b"--" + encode_and_quote(boundary)`, `lastBlock` the sliding
buffer, `cs` the chunks the remaining `read()` calls return.  Returns the
yielded blocks, the `(current, total)` progress trace, and the final sliding
buffer. -/
def drain (t : Bytes) (total curr : Nat) (lastBlock : Bytes) :
    List Bytes → Except EncErr (List Bytes × List (Nat × Nat) × Bytes)
  | [] => .ok ([crlf], [(curr + 2, total)], lastBlock)
  | c :: cs =>
    if c.isEmpty then .ok ([crlf], [(curr + 2, total)], lastBlock)
    else
      let lb := lastBlock ++ c
      if lineSearch t lb then .error .boundaryCollision
      else
        match drain t total (curr + c.length) (collisionWindow t lb) cs with
        | .error e => .error e
        | .ok (bs, tr, lbf) => .ok (c :: bs, (curr + c.length, total) :: tr, lbf)

/-- Model of `MultipartParam.iter_encode`, the generator run to completion:
the list of yielded blocks, the `(current, total)` pairs it hands the
progress callback, and the parameter afterwards (file cursor advanced to the
end). -/
def MultipartParam.iter_encode (p : MultipartParam) (boundary : Bytes) :
    Except EncErr (List Bytes × List (Nat × Nat) × MultipartParam) :=
  match p.get_size boundary with
  | none => .error .fault
  | some total =>
    match p.value with
    | some _ =>
      match p.encode boundary with
      | .error e => .error e
      | .ok (block, p') => .ok ([block], [(block.length, total)], p')
    | none =>
      match p.fileobj with
      | none => .error .fault
      | some f =>
        let hdr := p.encode_hdr boundary
        let t := strB "--" ++ encode_and_quote boundary
        match drain t total hdr.length [] (f.chunks.drop f.pos) with
        | .error e => .error e
        | .ok (bs, tr, _) =>
          .ok (hdr :: bs, (hdr.length, total) :: tr,
               { p with fileobj := some { f with pos := f.chunks.length } })

/-- Model of `MultipartParam.reset`. -/
def MultipartParam.reset (p : MultipartParam) : Except EncErr MultipartParam :=
  match p.fileobj with
  | some f => .ok { p with fileobj := some { f with pos := 0 } }
  | none =>
    match p.value with
    | none => .error .resetError
    | some _ => .ok p

/-- Model of `get_body_size` (`MultipartParam.from_params` is the identity on
a list that already consists of `MultipartParam`s, the only case the claims
exercise). -/
def get_body_size (params : List MultipartParam) (boundary : Bytes) : Option Nat :=
  (params.mapM (fun p => MultipartParam.get_size p boundary)).map
    (fun l => l.sum + boundary.length + 6)

/-- Model of the `MultipartYielder` state.  `i = none` models Python's
`self.i = None` after the closing chunk; `p`/`param_iter` are not modelled
separately because consumption is modelled whole (they are `None` both
initially and after full consumption, the states the claims are about). -/
structure MultipartYielder where
  params : List MultipartParam
  boundary : Bytes
  i : Option Nat
  current : Nat
  total : Nat
deriving DecidableEq, Repr

/-- Model of `MultipartYielder.__init__` (fails, as Python would inside
`get_body_size`, when some part's size is undetermined). -/
def mkYielder (params : List MultipartParam) (boundary : Bytes) :
    Option MultipartYielder :=
  (get_body_size params boundary).map fun t =>
    { params := params, boundary := boundary, i := some 0, current := 0, total := t }

/-- The final chunk of `MultipartYielder.__next__`: note it uses the raw
`self.boundary`, with no quoting step. -/
def closingChunk (boundary : Bytes) : Bytes := strB "--" ++ boundary ++ strB "--\r\n"

/-- The top-level progress entries `__next__` produces while relaying a list
of blocks: `current` grows by each block's length.  Also returns the final
`current`. -/
def topTrace (total curr : Nat) : List Bytes → List (Nat × Nat) × Nat
  | [] => ([], curr)
  | b :: bs =>
    let c := curr + b.length
    let (tr, cf) := topTrace total c bs
    ((c, total) :: tr, cf)

/-- Model of repeatedly calling `MultipartYielder.__next__` over the fields
from the current position until `StopIteration`: every remaining field's
blocks in order, then the closing chunk.  Returns blocks, top-level callback
trace, the updated parameters, and the final `current`. -/
def consumeFrom (boundary : Bytes) (total curr : Nat) :
    List MultipartParam →
      Except EncErr (List Bytes × List (Nat × Nat) × List MultipartParam × Nat)
  | [] =>
    let close := closingChunk boundary
    .ok ([close], [(curr + close.length, total)], [], curr + close.length)
  | p :: ps =>
    match p.iter_encode boundary with
    | .error e => .error e
    | .ok (bs, _, p') =>
      let (tr, c') := topTrace total curr bs
      match consumeFrom boundary total c' ps with
      | .error e => .error e
      | .ok (bs', tr', ps', cf) => .ok (bs ++ bs', tr ++ tr', p' :: ps', cf)

/-- Model of fully consuming a `MultipartYielder`. -/
def consumeAll (y : MultipartYielder) :
    Except EncErr (List Bytes × List (Nat × Nat) × MultipartYielder) :=
  match y.i with
  | none => .ok ([], [], y)
  | some i =>
    match consumeFrom y.boundary y.total y.current (y.params.drop i) with
    | .error e => .error e
    | .ok (bs, tr, ps', cf) =>
      .ok (bs, tr,
           { y with params := y.params.take i ++ ps', i := none, current := cf })

def resetParams : List MultipartParam → Except EncErr (List MultipartParam)
  | [] => .ok []
  | p :: ps =>
    match p.reset with
    | .error e => .error e
    | .ok p' =>
      match resetParams ps with
      | .error e => .error e
      | .ok ps' => .ok (p' :: ps')

/-- Model of `MultipartYielder.reset`. -/
def MultipartYielder.reset (y : MultipartYielder) : Except EncErr MultipartYielder :=
  match resetParams y.params with
  | .error e => .error e
  | .ok ps => .ok { y with i := some 0, current := 0, params := ps }

/-- A parameter as the claims' data model describes a valid field: an Inline
field (a text value, no file, no preset size) or a Stream field (a file whose
cursor is at the start, whose reads are nonempty, and whose resolved size is
the actual number of bytes the reads deliver). -/
def validParam (p : MultipartParam) : Bool :=
  match p.value, p.fileobj, p.filesize with
  | some _, none, none => true
  | none, some f, some n =>
      f.pos == 0 && !(f.chunks.contains []) && n == f.chunks.flatten.length
  | _, _, _ => false

/-- What a collision-free run of the read loop produces, as a function of the
reads alone (the window only influences whether a collision fires). -/
def drainSpec (total curr : Nat) : List Bytes → List Bytes × List (Nat × Nat)
  | [] => ([crlf], [(curr + 2, total)])
  | c :: cs =>
    let p := drainSpec total (curr + c.length) cs
    (c :: p.1, (curr + c.length, total) :: p.2)

/-- The `Content-Disposition` value of a field: `form-data; name="..."`,
with `; filename="..."` appended exactly when a (nonempty) filename is
present. -/
def dispositionValue (p : MultipartParam) : Bytes :=
  match p.filename with
  | some fn =>
      if fn.isEmpty then strB "form-data; name=\"" ++ p.name ++ strB "\""
      else strB "form-data; name=\"" ++ p.name ++ strB "\"; filename=\"" ++
        fn ++ strB "\""
  | none => strB "form-data; name=\"" ++ p.name ++ strB "\""

/-- The `Content-Type` value of a field: `content_type`, or the default when
absent or empty. -/
def ctypeValue (p : MultipartParam) : Bytes :=
  match p.filetype with
  | some t => if t.isEmpty then defaultContentType else t
  | none => defaultContentType

/-- The header block exactly as the claim words it: the lines
`--boundary`, `Content-Disposition: ...`, `Content-Type: ...`, joined by CRLF
and terminated by CRLF-CRLF, with the boundary appearing exactly as given.
Used to compare the claimed shape with what `encode_hdr` produces. -/
def renderHeaderSpec (p : MultipartParam) (boundary : Bytes) : Bytes :=
  strB "--" ++ boundary ++ crlf ++
  strB "Content-Disposition: " ++ dispositionValue p ++ crlf ++
  strB "Content-Type: " ++ ctypeValue p ++ crlf ++ crlf

/-- The collision-check buffer exactly as the claim describes it: the last
`len(boundary) + 2` bytes of the data seen so far. -/
def specWindow (boundary data : Bytes) : Bytes :=
  data.drop (data.length - (boundary.length + 2))

/-- Concrete sample data used to instantiate the theorems. -/
def exBoundary : Bytes := strB "b"

def exInline : MultipartParam := { name := strB "n", value := some (strB "v") }

def exStream : MultipartParam :=
  { name := strB "m", filesize := some 3, fileobj := some ⟨[[97], [98, 99]], 0⟩ }

def exParams : List MultipartParam := [exInline, exStream]

/-! ### Characterizations of the two search predicates -/

theorem lineSearch_eq_true_iff {t s : Bytes} :
    lineSearch t s = true ↔
      ∃ u v, s = u ++ t ++ v ∧ headOk u = true ∧ tailOk v = true := by
  unfold lineSearch
  rw [List.any_eq_true]
  constructor
  · rintro ⟨i, _, h⟩
    simp only [Bool.and_eq_true, beq_iff_eq] at h
    obtain ⟨⟨ht, hu⟩, hv⟩ := h
    refine ⟨s.take i, s.drop (i + t.length), ?_, hu, hv⟩
    have h4 : s.drop i = t ++ s.drop (i + t.length) := by
      conv_lhs => rw [← List.take_append_drop t.length (s.drop i)]
      rw [ht, List.drop_drop, Nat.add_comm]
    rw [List.append_assoc, ← h4, List.take_append_drop]
  · rintro ⟨u, v, rfl, hu, hv⟩
    refine ⟨u.length, ?_, ?_⟩
    · rw [List.mem_range]
      simp [List.length_append]
      omega
    · have h1 : (u ++ t ++ v).drop u.length = t ++ v := by
        rw [List.append_assoc, List.drop_left]
      have h2 : (u ++ t ++ v).take u.length = u := by
        rw [List.append_assoc, List.take_left]
      have h3 : (u ++ t ++ v).drop (u.length + t.length) = v := by
        rw [List.append_assoc, List.drop_append_eq_append_drop]
        simp
      simp only [h1, h2, h3, List.take_left, hu, hv, Bool.and_self, beq_self_eq_true,
        Bool.and_true, Bool.and_eq_true, beq_iff_eq]

theorem occursIn_eq_true_iff {t s : Bytes} :
    occursIn t s = true ↔ ∃ u v, s = u ++ t ++ v := by
  unfold occursIn
  rw [List.any_eq_true]
  constructor
  · rintro ⟨i, _, h⟩
    rw [beq_iff_eq] at h
    refine ⟨s.take i, s.drop (i + t.length), ?_⟩
    have h4 : s.drop i = t ++ s.drop (i + t.length) := by
      conv_lhs => rw [← List.take_append_drop t.length (s.drop i)]
      rw [h, List.drop_drop, Nat.add_comm]
    rw [List.append_assoc, ← h4, List.take_append_drop]
  · rintro ⟨u, v, rfl⟩
    refine ⟨u.length, ?_, ?_⟩
    · rw [List.mem_range]
      simp only [List.length_append]
      omega
    · rw [beq_iff_eq, List.append_assoc, List.drop_left, List.take_left]

theorem lineSearch_imp_occursIn {t s : Bytes} (h : lineSearch t s = true) :
    occursIn t s = true := by
  rw [lineSearch_eq_true_iff] at h
  obtain ⟨u, v, rfl, _, _⟩ := h
  rw [occursIn_eq_true_iff]
  exact ⟨u, v, rfl⟩

/-- If an anchored match extends past the end of the retained part `a`, then
the `collisionWindow` truncation of `a` keeps everything the match needs:
the match survives, still extending past the truncated buffer. -/
theorem match_window (t a b u v : Bytes)
    (hs : a ++ b = u ++ t ++ v) (hu : headOk u = true) (hv : tailOk v = true)
    (hbeyond : a.length < u.length + t.length) :
    ∃ u' v', collisionWindow t a ++ b = u' ++ t ++ v' ∧ headOk u' = true ∧
      tailOk v' = true ∧ (collisionWindow t a).length < u'.length + t.length := by
  have hlen : a.length + b.length = u.length + t.length + v.length := by
    have := congrArg List.length hs
    simp only [List.length_append] at this
    omega
  set m := a.length - (t.length + 2) with hm
  have hmu : m ≤ u.length := by omega
  have hma : m ≤ a.length := by omega
  have hwnd : collisionWindow t a = a.drop m := by
    unfold collisionWindow
    rw [← hm]
  refine ⟨u.drop m, v, ?_, ?_, hv, ?_⟩
  · have h1 : (a ++ b).drop m = collisionWindow t a ++ b := by
      rw [List.drop_append_eq_append_drop, Nat.sub_eq_zero_of_le hma,
        List.drop_zero, hwnd]
    have h2 : (a ++ b).drop m = u.drop m ++ (t ++ v) := by
      rw [hs, List.append_assoc, List.drop_append_eq_append_drop,
        Nat.sub_eq_zero_of_le hmu, List.drop_zero]
    have h3 := h1.symm.trans h2
    simpa [List.append_assoc] using h3
  · by_cases hdm : u.drop m = []
    · rw [hdm]; rfl
    · have hune : u ≠ [] := by
        intro h
        rw [h, List.drop_nil] at hdm
        exact hdm rfl
      have hsame : u.getLast? = (u.drop m).getLast? := by
        conv_lhs => rw [← List.take_append_drop m u]
        exact List.getLast?_append_of_ne_nil _ hdm
      have hlast : u.getLast? = some 10 := by
        unfold headOk at hu
        rcases Bool.or_eq_true_iff.mp hu with h | h
        · exact absurd (List.isEmpty_iff.mp h) hune
        · exact beq_iff_eq.mp h
      unfold headOk
      rw [← hsame, hlast]
      simp
  · rw [hwnd, List.length_drop, List.length_drop]
    omega

/-- If an anchored match of `t` in `a ++ b` lies entirely inside `a`, then
the line-anchored search already succeeds on `a` alone. -/
theorem lineSearch_of_match_within (t a b u v : Bytes)
    (hs : a ++ b = u ++ t ++ v) (hu : headOk u = true) (hv : tailOk v = true)
    (hin : u.length + t.length ≤ a.length) : lineSearch t a = true := by
  have hlen : a.length + b.length = u.length + t.length + v.length := by
    have := congrArg List.length hs
    simp only [List.length_append] at this
    omega
  rw [lineSearch_eq_true_iff]
  refine ⟨u, v.take (a.length - u.length - t.length), ?_, hu, ?_⟩
  · have h1 : a = (a ++ b).take a.length := (List.take_left a b).symm
    have h2 : (u ++ t ++ v).take a.length =
        u ++ t ++ v.take (a.length - u.length - t.length) := by
      rw [List.append_assoc, List.take_append_eq_append_take,
        List.take_of_length_le (by omega), List.take_append_eq_append_take,
        List.take_of_length_le (by omega), List.append_assoc]
    calc a = (a ++ b).take a.length := h1
      _ = (u ++ t ++ v).take a.length := by rw [hs]
      _ = u ++ t ++ v.take (a.length - u.length - t.length) := h2
  · rcases Nat.eq_zero_or_pos (a.length - u.length - t.length) with hk0 | hkpos
    · rw [hk0, List.take_zero]; rfl
    · cases v with
      | nil =>
        exfalso
        simp only [List.length_nil] at hlen
        omega
      | cons x xs =>
        have hx : x = 10 := by
          unfold tailOk at hv
          rcases Bool.or_eq_true_iff.mp hv with h | h
          · exact absurd (List.isEmpty_iff.mp h) (by simp)
          · have := beq_iff_eq.mp h
            simpa using this
        obtain ⟨k', hk'⟩ : ∃ k', a.length - u.length - t.length = k' + 1 :=
          ⟨a.length - u.length - t.length - 1, by omega⟩
        rw [hk', List.take_succ_cons]
        unfold tailOk
        simp [hx]

/-! ### The sliding-window read loop -/

theorem drain_cons (t : Bytes) (total curr : Nat) (w c : Bytes) (cs : List Bytes)
    (hc : c.isEmpty = false) :
    drain t total curr w (c :: cs) =
      if lineSearch t (w ++ c) then .error .boundaryCollision
      else
        match drain t total (curr + c.length) (collisionWindow t (w ++ c)) cs with
        | .error e => .error e
        | .ok (bs, tr, lbf) => .ok (c :: bs, (curr + c.length, total) :: tr, lbf) := by
  conv_lhs => rw [drain]
  rw [hc]
  rfl

/-- Completeness of the chunked collision check: whenever the window plus the
data still to come contains an anchored occurrence of `t` that is not wholly
behind the window, the read loop raises the collision error — however the
data is split into reads. -/
theorem drain_collision_of_match (t : Bytes) :
    ∀ (cs : List Bytes) (w : Bytes) (total curr : Nat),
      [] ∉ cs →
      (∃ u v, w ++ cs.flatten = u ++ t ++ v ∧ headOk u = true ∧ tailOk v = true ∧
        w.length < u.length + t.length) →
      drain t total curr w cs = .error .boundaryCollision := by
  intro cs
  induction cs with
  | nil =>
    rintro w total curr _ ⟨u, v, hs, _, _, hb⟩
    exfalso
    have := congrArg List.length hs
    simp only [List.flatten_nil, List.append_nil, List.length_append] at this
    omega
  | cons c cs ih =>
    rintro w total curr hmem ⟨u, v, hs, hu, hv, hb⟩
    have hc : c ≠ [] := fun h => hmem (by rw [h]; exact List.mem_cons_self _ _)
    have hcE : c.isEmpty = false := by
      cases hE : c.isEmpty
      · rfl
      · exact absurd (List.isEmpty_iff.mp hE) hc
    rw [drain_cons t total curr w c cs hcE]
    by_cases hls : lineSearch t (w ++ c) = true
    · rw [if_pos hls]
    · rw [if_neg hls]
      have hs' : (w ++ c) ++ cs.flatten = u ++ t ++ v := by
        simpa [List.append_assoc] using hs
      have hbeyond : (w ++ c).length < u.length + t.length := by
        by_contra hle
        push_neg at hle
        exact hls (lineSearch_of_match_within t (w ++ c) cs.flatten u v hs' hu hv hle)
      obtain ⟨u', v', h1, h2, h3, h4⟩ :=
        match_window t (w ++ c) cs.flatten u v hs' hu hv hbeyond
      have hrec := ih (collisionWindow t (w ++ c)) total (curr + c.length)
        (fun h => hmem (List.mem_cons_of_mem _ h)) ⟨u', v', h1, h2, h3, h4⟩
      rw [hrec]

/-- Soundness against substring-free data: every buffer the loop checks is a
contiguous piece of the overall data `D`, so if the target does not occur in
`D` even as a plain substring, no collision is ever raised. -/
theorem drain_sound (t D : Bytes) (hD : occursIn t D = false) :
    ∀ (cs : List Bytes) (w : Bytes) (total curr : Nat) (pre : Bytes),
      D = pre ++ w ++ cs.flatten →
      drain t total curr w cs ≠ .error .boundaryCollision := by
  intro cs
  induction cs with
  | nil =>
    intro w total curr pre _
    unfold drain
    intro h
    exact Except.noConfusion h
  | cons c cs ih =>
    intro w total curr pre hDeq
    cases hcE : c.isEmpty with
    | true =>
      unfold drain
      rw [hcE]
      intro h
      exact Except.noConfusion h
    | false =>
      rw [drain_cons t total curr w c cs hcE]
      by_cases hls : lineSearch t (w ++ c) = true
      · exfalso
        have hocc := lineSearch_imp_occursIn hls
        rw [occursIn_eq_true_iff] at hocc
        obtain ⟨u, v, huv⟩ := hocc
        have hDocc : occursIn t D = true := by
          rw [occursIn_eq_true_iff]
          refine ⟨pre ++ u, v ++ cs.flatten, ?_⟩
          calc D = pre ++ w ++ (c :: cs).flatten := hDeq
            _ = pre ++ ((w ++ c) ++ cs.flatten) := by simp [List.append_assoc]
            _ = pre ++ ((u ++ t ++ v) ++ cs.flatten) := by rw [huv]
            _ = pre ++ u ++ t ++ (v ++ cs.flatten) := by simp [List.append_assoc]
        rw [hD] at hDocc
        exact Bool.noConfusion hDocc
      · rw [if_neg hls]
        have hinv : D = (pre ++ (w ++ c).take ((w ++ c).length - (t.length + 2))) ++
            collisionWindow t (w ++ c) ++ cs.flatten := by
          unfold collisionWindow
          calc D = pre ++ w ++ (c :: cs).flatten := hDeq
            _ = pre ++ (((w ++ c).take ((w ++ c).length - (t.length + 2)) ++
                (w ++ c).drop ((w ++ c).length - (t.length + 2))) ++ cs.flatten) := by
                rw [List.take_append_drop]
                simp [List.append_assoc]
            _ = (pre ++ (w ++ c).take ((w ++ c).length - (t.length + 2))) ++
                (w ++ c).drop ((w ++ c).length - (t.length + 2)) ++ cs.flatten := by
                simp [List.append_assoc]
        have hrec := ih (collisionWindow t (w ++ c)) total (curr + c.length) _ hinv
        intro h
        cases hd : drain t total (curr + c.length) (collisionWindow t (w ++ c)) cs with
        | error e =>
          rw [hd] at h
          injection h with he
          rw [he] at hd
          exact hrec hd
        | ok val =>
          rw [hd] at h
          exact Except.noConfusion h

/-- Re-windowing commutes with extension: keeping the last `K` bytes of
(last `K` bytes of `a`, then `b`) is keeping the last `K` bytes of `a ++ b`. -/
theorem drop_window_append (K : Nat) (a b : Bytes) :
    (a.drop (a.length - K) ++ b).drop ((a.drop (a.length - K) ++ b).length - K) =
      (a ++ b).drop ((a ++ b).length - K) := by
  by_cases h : a.length ≤ K
  · rw [Nat.sub_eq_zero_of_le h, List.drop_zero]
  · push_neg at h
    have hm : a.length - K ≤ a.length := Nat.sub_le _ _
    have h1 : a.drop (a.length - K) ++ b = (a ++ b).drop (a.length - K) := by
      rw [List.drop_append_eq_append_drop, Nat.sub_eq_zero_of_le hm, List.drop_zero]
    rw [h1, List.drop_drop]
    congr 1
    simp only [List.length_drop, List.length_append]
    omega

theorem getLast?_cons_eq {α : Type} (a z : α) (l : List α) (h : l.getLast? = some z) :
    (a :: l).getLast? = some z := by
  cases l with
  | nil => exact Option.noConfusion h
  | cons b l =>
    rw [List.getLast?_cons_cons]
    exact h

/-- The sliding buffer after a complete, collision-free run over nonempty
reads holds exactly the last `t.length + 2` bytes of everything read (all of
it, when fewer bytes than that were read). -/
theorem drain_final_window (t : Bytes) :
    ∀ (cs : List Bytes) (w : Bytes) (total curr : Nat) (bs : List Bytes)
      (tr : List (Nat × Nat)) (lbf : Bytes),
      [] ∉ cs → w.length ≤ t.length + 2 →
      drain t total curr w cs = .ok (bs, tr, lbf) →
      lbf = (w ++ cs.flatten).drop ((w ++ cs.flatten).length - (t.length + 2)) := by
  intro cs
  induction cs with
  | nil =>
    intro w total curr bs tr lbf _ hw h
    unfold drain at h
    simp only [Except.ok.injEq, Prod.mk.injEq] at h
    obtain ⟨-, -, h3⟩ := h
    rw [← h3]
    simp only [List.flatten_nil, List.append_nil]
    rw [Nat.sub_eq_zero_of_le hw, List.drop_zero]
  | cons c cs ih =>
    intro w total curr bs tr lbf hmem hw h
    have hc : c ≠ [] := fun hh => hmem (by rw [hh]; exact List.mem_cons_self _ _)
    have hcE : c.isEmpty = false := by
      cases hE : c.isEmpty
      · rfl
      · exact absurd (List.isEmpty_iff.mp hE) hc
    rw [drain_cons t total curr w c cs hcE] at h
    by_cases hls : lineSearch t (w ++ c) = true
    · rw [if_pos hls] at h
      exact absurd h (fun hh => Except.noConfusion hh)
    · rw [if_neg hls] at h
      cases hd : drain t total (curr + c.length) (collisionWindow t (w ++ c)) cs with
      | error e =>
        rw [hd] at h
        exact absurd h (fun hh => Except.noConfusion hh)
      | ok val =>
        obtain ⟨bs', tr', lbf'⟩ := val
        rw [hd] at h
        simp only [Except.ok.injEq, Prod.mk.injEq] at h
        obtain ⟨-, -, h3⟩ := h
        have hwnd : (collisionWindow t (w ++ c)).length ≤ t.length + 2 := by
          unfold collisionWindow
          simp only [List.length_drop]
          omega
        have hres := ih (collisionWindow t (w ++ c)) total (curr + c.length) bs' tr' lbf'
          (fun hh => hmem (List.mem_cons_of_mem _ hh)) hwnd hd
        rw [← h3, hres]
        unfold collisionWindow
        rw [drop_window_append (t.length + 2) (w ++ c) cs.flatten]
        have : (w ++ c) ++ cs.flatten = w ++ (c :: cs).flatten := by
          simp [List.append_assoc]
        rw [this]

theorem drain_ok_spec (t : Bytes) :
    ∀ (cs : List Bytes) (w : Bytes) (total curr : Nat) (bs : List Bytes)
      (tr : List (Nat × Nat)) (lbf : Bytes),
      [] ∉ cs → drain t total curr w cs = .ok (bs, tr, lbf) →
      bs = (drainSpec total curr cs).1 ∧ tr = (drainSpec total curr cs).2 := by
  intro cs
  induction cs with
  | nil =>
    intro w total curr bs tr lbf _ h
    unfold drain at h
    simp only [Except.ok.injEq, Prod.mk.injEq] at h
    obtain ⟨h1, h2, -⟩ := h
    exact ⟨h1.symm, h2.symm⟩
  | cons c cs ih =>
    intro w total curr bs tr lbf hmem h
    have hc : c ≠ [] := fun hh => hmem (by rw [hh]; exact List.mem_cons_self _ _)
    have hcE : c.isEmpty = false := by
      cases hE : c.isEmpty
      · rfl
      · exact absurd (List.isEmpty_iff.mp hE) hc
    rw [drain_cons t total curr w c cs hcE] at h
    by_cases hls : lineSearch t (w ++ c) = true
    · rw [if_pos hls] at h
      exact absurd h (fun hh => Except.noConfusion hh)
    · rw [if_neg hls] at h
      cases hd : drain t total (curr + c.length) (collisionWindow t (w ++ c)) cs with
      | error e =>
        rw [hd] at h
        exact absurd h (fun hh => Except.noConfusion hh)
      | ok val =>
        obtain ⟨bs', tr', lbf'⟩ := val
        rw [hd] at h
        simp only [Except.ok.injEq, Prod.mk.injEq] at h
        obtain ⟨h1, h2, -⟩ := h
        obtain ⟨g1, g2⟩ := ih (collisionWindow t (w ++ c)) total (curr + c.length)
          bs' tr' lbf' (fun hh => hmem (List.mem_cons_of_mem _ hh)) hd
        unfold drainSpec
        constructor
        · rw [← h1, g1]
        · rw [← h2, g2]

theorem drainSpec_flatten (total : Nat) :
    ∀ (cs : List Bytes) (curr : Nat),
      (drainSpec total curr cs).1.flatten = cs.flatten ++ crlf := by
  intro cs
  induction cs with
  | nil => intro curr; rfl
  | cons c cs ih =>
    intro curr
    unfold drainSpec
    simp only [List.flatten_cons]
    rw [ih (curr + c.length)]
    simp [List.append_assoc]

theorem drainSpec_chain (total : Nat) :
    ∀ (cs : List Bytes) (curr : Nat),
      List.Chain' (fun x y => x.1 ≤ y.1) ((curr, total) :: (drainSpec total curr cs).2) := by
  intro cs
  induction cs with
  | nil =>
    intro curr
    unfold drainSpec
    rw [List.chain'_cons]
    exact ⟨by omega, List.chain'_singleton _⟩
  | cons c cs ih =>
    intro curr
    unfold drainSpec
    rw [List.chain'_cons]
    exact ⟨by omega, ih (curr + c.length)⟩

theorem drainSpec_last (total : Nat) :
    ∀ (cs : List Bytes) (curr : Nat),
      (drainSpec total curr cs).2.getLast? = some (curr + cs.flatten.length + 2, total) := by
  intro cs
  induction cs with
  | nil =>
    intro curr
    unfold drainSpec
    rfl
  | cons c cs ih =>
    intro curr
    unfold drainSpec
    refine getLast?_cons_eq _ _ _ ?_
    rw [ih (curr + c.length)]
    simp only [List.flatten_cons, List.length_append]
    congr 2
    omega

/-! ### Reduction lemmas for the per-field generator -/

theorem iter_encode_inline_err (p : MultipartParam) (boundary v : Bytes)
    (hv : p.value = some v)
    (hls : lineSearch (strB "--" ++ boundary) v = true) :
    p.iter_encode boundary = .error .boundaryCollision := by
  cases hfs : p.filesize with
  | some n =>
    simp [MultipartParam.iter_encode, MultipartParam.get_size, hfs, hv,
      MultipartParam.encode, hls]
  | none =>
    simp [MultipartParam.iter_encode, MultipartParam.get_size, hfs, hv,
      MultipartParam.encode, hls]

theorem encode_inline_err (p : MultipartParam) (boundary v : Bytes)
    (hv : p.value = some v)
    (hls : lineSearch (strB "--" ++ boundary) v = true) :
    p.encode boundary = .error .boundaryCollision := by
  simp [MultipartParam.encode, hv, hls]

theorem iter_encode_inline (p : MultipartParam) (boundary v : Bytes)
    (hv : p.value = some v) (hfs : p.filesize = none)
    (hls : lineSearch (strB "--" ++ boundary) v = false) :
    p.iter_encode boundary =
      .ok ([p.encode_hdr boundary ++ v ++ crlf],
        [((p.encode_hdr boundary ++ v ++ crlf).length,
          (p.encode_hdr boundary).length + 2 + v.length)], p) := by
  simp [MultipartParam.iter_encode, MultipartParam.get_size, hfs, hv,
    MultipartParam.encode, hls]

theorem iter_encode_stream (p : MultipartParam) (boundary : Bytes) (f : FileObj) (n : Nat)
    (hv : p.value = none) (hf : p.fileobj = some f) (hfs : p.filesize = some n) :
    p.iter_encode boundary =
      match drain (strB "--" ++ encode_and_quote boundary)
          ((p.encode_hdr boundary).length + 2 + n) (p.encode_hdr boundary).length []
          (f.chunks.drop f.pos) with
      | .error e => .error e
      | .ok (bs, tr, _) =>
        .ok (p.encode_hdr boundary :: bs,
          ((p.encode_hdr boundary).length, (p.encode_hdr boundary).length + 2 + n) :: tr,
          { p with fileobj := some { f with pos := f.chunks.length } }) := by
  simp only [MultipartParam.iter_encode, MultipartParam.get_size, hv, hf, hfs]

theorem validParam_cases {p : MultipartParam} (h : validParam p = true) :
    (∃ v, p.value = some v ∧ p.fileobj = none ∧ p.filesize = none) ∨
    (∃ f, p.value = none ∧ p.fileobj = some f ∧ f.pos = 0 ∧ [] ∉ f.chunks ∧
      p.filesize = some f.chunks.flatten.length) := by
  unfold validParam at h
  cases hv : p.value with
  | some v =>
    cases hf : p.fileobj with
    | some f => rw [hv, hf] at h; cases hs : p.filesize <;> rw [hs] at h <;> simp at h
    | none =>
      cases hs : p.filesize with
      | some n => rw [hv, hf, hs] at h; simp at h
      | none => exact Or.inl ⟨v, rfl, rfl, rfl⟩
  | none =>
    cases hf : p.fileobj with
    | none => rw [hv, hf] at h; cases hs : p.filesize <;> rw [hs] at h <;> simp at h
    | some f =>
      cases hs : p.filesize with
      | none => rw [hv, hf, hs] at h; simp at h
      | some n =>
        rw [hv, hf, hs] at h
        simp only [Bool.and_eq_true, beq_iff_eq, Bool.not_eq_true'] at h
        obtain ⟨⟨hpos, hcont⟩, hn⟩ := h
        refine Or.inr ⟨f, rfl, rfl, hpos, ?_, ?_⟩
        · intro hmem
          rw [List.contains, List.elem_eq_mem, decide_eq_false_iff_not] at hcont
          exact hcont hmem
        · rw [hn]

/-- Resetting a stream field whose cursor started at `0` restores it exactly,
whatever cursor the run left behind. -/
theorem reset_after_run (p : MultipartParam) (f : FileObj) (hf : p.fileobj = some f)
    (hpos : f.pos = 0) (m : Nat) :
    MultipartParam.reset { p with fileobj := some { f with pos := m } } = .ok p := by
  unfold MultipartParam.reset
  obtain ⟨ch, po⟩ := f
  simp only at hpos
  subst hpos
  obtain ⟨a, b, c, d, e, g⟩ := p
  simp only at hf
  subst hf
  rfl

/-- Everything later claims need about one valid field's completed generator
run: the bytes it yields measure exactly `get_size`, its progress trace is
nondecreasing and ends at `(get_size, get_size)`, and `reset` restores the
field to its pre-run state. -/
theorem iter_encode_valid_ok {p : MultipartParam} {boundary : Bytes} {s : Nat}
    (hval : validParam p = true) (hsz : p.get_size boundary = some s) :
    ∀ {bs : List Bytes} {tr : List (Nat × Nat)} {p' : MultipartParam},
      p.iter_encode boundary = .ok (bs, tr, p') →
      bs.flatten.length = s ∧
      List.Chain' (fun x y => x.1 ≤ y.1) tr ∧
      tr.getLast? = some (s, s) ∧
      p'.reset = .ok p := by
  rcases validParam_cases hval with ⟨v, hv, hf, hfs⟩ | ⟨f, hv, hf, hpos, hmem, hfs⟩
  · intro bs tr p' h
    have hseq : s = (p.encode_hdr boundary).length + 2 + v.length := by
      unfold MultipartParam.get_size at hsz
      rw [hfs, hv] at hsz
      simp at hsz
      omega
    cases hls : lineSearch (strB "--" ++ boundary) v with
    | true =>
      rw [iter_encode_inline_err p boundary v hv hls] at h
      exact absurd h (fun hh => Except.noConfusion hh)
    | false =>
      rw [iter_encode_inline p boundary v hv hfs hls] at h
      simp only [Except.ok.injEq, Prod.mk.injEq] at h
      obtain ⟨h1, h2, h3⟩ := h
      have hblock : (p.encode_hdr boundary ++ v ++ crlf).length = s := by
        simp only [List.length_append, crlf, List.length_cons, List.length_nil]
        omega
      refine ⟨?_, ?_, ?_, ?_⟩
      · rw [← h1]
        simp only [List.flatten_cons, List.flatten_nil, List.append_nil]
        exact hblock
      · rw [← h2]
        exact List.chain'_singleton _
      · rw [← h2, hblock]
        rw [hseq]
        rfl
      · rw [← h3]
        unfold MultipartParam.reset
        rw [hf, hv]
  · intro bs tr p' h
    have hseq : s = (p.encode_hdr boundary).length + 2 + f.chunks.flatten.length := by
      unfold MultipartParam.get_size at hsz
      rw [hfs] at hsz
      simp at hsz
      have hfl : f.chunks.flatten.length = (f.chunks.map List.length).sum := by
        simp
      omega
    rw [iter_encode_stream p boundary f f.chunks.flatten.length hv hf hfs] at h
    rw [hpos, List.drop_zero] at h
    cases hd : drain (strB "--" ++ encode_and_quote boundary)
        ((p.encode_hdr boundary).length + 2 + f.chunks.flatten.length)
        (p.encode_hdr boundary).length [] f.chunks with
    | error e =>
      rw [hd] at h
      exact absurd h (fun hh => Except.noConfusion hh)
    | ok val =>
      obtain ⟨bs', tr', lbf'⟩ := val
      rw [hd] at h
      simp only [Except.ok.injEq, Prod.mk.injEq] at h
      obtain ⟨h1, h2, h3⟩ := h
      obtain ⟨g1, g2⟩ := drain_ok_spec _ f.chunks [] _ _ bs' tr' lbf' hmem hd
      refine ⟨?_, ?_, ?_, ?_⟩
      · rw [← h1]
        simp only [List.flatten_cons]
        rw [g1, drainSpec_flatten]
        have hfl : f.chunks.flatten.length = (f.chunks.map List.length).sum := by
          simp
        simp only [List.length_append, crlf, List.length_cons, List.length_nil]
        omega
      · rw [← h2, g2]
        exact drainSpec_chain _ f.chunks _
      · rw [← h2]
        refine getLast?_cons_eq _ _ _ ?_
        rw [g2, drainSpec_last, hseq]
        simp only [Option.some.injEq, Prod.mk.injEq]
        constructor
        · omega
        · trivial
      · rw [← h3]
        exact reset_after_run p f hf hpos f.chunks.length

/-! ### The sequence assembler -/

theorem topTrace_final (total : Nat) :
    ∀ (bs : List Bytes) (curr : Nat),
      (topTrace total curr bs).2 = curr + bs.flatten.length := by
  intro bs
  induction bs with
  | nil => intro curr; simp [topTrace]
  | cons b bs ih =>
    intro curr
    unfold topTrace
    simp only [List.flatten_cons, List.length_append]
    rw [ih]
    omega

theorem topTrace_chain (total : Nat) :
    ∀ (bs : List Bytes) (curr : Nat),
      List.Chain' (fun x y => x.1 ≤ y.1) ((curr, total) :: (topTrace total curr bs).1) := by
  intro bs
  induction bs with
  | nil => intro curr; exact List.chain'_singleton _
  | cons b bs ih =>
    intro curr
    unfold topTrace
    exact List.chain'_cons.mpr ⟨by omega, ih (curr + b.length)⟩

theorem topTrace_last (total : Nat) :
    ∀ (bs : List Bytes) (curr : Nat), bs ≠ [] →
      (topTrace total curr bs).1.getLast? = some ((topTrace total curr bs).2, total) := by
  intro bs
  induction bs with
  | nil => intro curr h; exact absurd rfl h
  | cons b bs ih =>
    intro curr _
    cases bs with
    | nil => rfl
    | cons c cs =>
      have hne : c :: cs ≠ [] := by simp
      have := ih (curr + b.length) hne
      unfold topTrace
      exact getLast?_cons_eq _ _ _ this

theorem chain_le_glue :
    ∀ (l₁ : List (Nat × Nat)) (a b : Nat × Nat) (l₂ : List (Nat × Nat)),
      List.Chain' (fun x y => x.1 ≤ y.1) (a :: l₁) → l₁.getLast? = some b →
      List.Chain' (fun x y => x.1 ≤ y.1) (b :: l₂) →
      List.Chain' (fun x y => x.1 ≤ y.1) (a :: l₁ ++ l₂) := by
  intro l₁
  induction l₁ with
  | nil => intro a b l₂ _ h _; exact Option.noConfusion h
  | cons c l ih =>
    intro a b l₂ h1 h2 h3
    rw [List.chain'_cons] at h1
    obtain ⟨hac, hcl⟩ := h1
    cases l with
    | nil =>
      have hcb : c = b := by simpa using h2
      subst hcb
      exact List.chain'_cons.mpr ⟨hac, h3⟩
    | cons d l' =>
      rw [List.getLast?_cons_cons] at h2
      exact List.chain'_cons.mpr ⟨hac, ih c b l₂ hcl h2 h3⟩

theorem get_size_pos {p : MultipartParam} {boundary : Bytes} {s : Nat}
    (h : p.get_size boundary = some s) : 2 ≤ s := by
  unfold MultipartParam.get_size at h
  cases hfs : p.filesize with
  | some n => rw [hfs] at h; injection h with h'; omega
  | none =>
    rw [hfs] at h
    cases hv : p.value with
    | none => rw [hv] at h; exact Option.noConfusion h
    | some v => rw [hv] at h; injection h with h'; omega

theorem consumeFrom_valid (boundary : Bytes) :
    ∀ (ps : List MultipartParam) (l : List Nat) (T curr : Nat),
      (∀ p ∈ ps, validParam p = true) →
      ps.mapM (fun p => MultipartParam.get_size p boundary) = some l →
      ∀ {bs : List Bytes} {tr : List (Nat × Nat)} {ps' : List MultipartParam} {cf : Nat},
      consumeFrom boundary T curr ps = .ok (bs, tr, ps', cf) →
      bs.flatten.length = l.sum + boundary.length + 6 ∧
      cf = curr + bs.flatten.length ∧
      List.Chain' (fun x y => x.1 ≤ y.1) ((curr, T) :: tr) ∧
      tr.getLast? = some (cf, T) ∧
      resetParams ps' = .ok ps := by
  intro ps
  induction ps with
  | nil =>
    intro l T curr _ hsz bs tr ps' cf h
    have hl : l = [] := by
      rw [List.mapM_nil] at hsz
      simpa using hsz.symm
    subst hl
    unfold consumeFrom at h
    simp only [Except.ok.injEq, Prod.mk.injEq] at h
    obtain ⟨h1, h2, h3, h4⟩ := h
    have hclose : (closingChunk boundary).length = boundary.length + 6 := by
      unfold closingChunk
      simp only [List.length_append]
      have e1 : (strB "--").length = 2 := rfl
      have e2 : (strB "--\r\n").length = 4 := rfl
      omega
    have hflat : bs.flatten.length = boundary.length + 6 := by
      rw [← h1]
      simp only [List.flatten_cons, List.flatten_nil, List.append_nil]
      exact hclose
    refine ⟨by rw [hflat]; simp, ?_, ?_, ?_, ?_⟩
    · rw [hflat, ← h4, hclose]
    · rw [← h2]
      exact List.chain'_cons.mpr ⟨by omega, List.chain'_singleton _⟩
    · rw [← h2, ← h4]
      rfl
    · rw [← h3]
      rfl
  | cons p ps ih =>
    intro l T curr hval hsz bs tr ps' cf h
    cases hsp : MultipartParam.get_size p boundary with
    | none =>
      rw [List.mapM_cons, hsp] at hsz
      simp at hsz
    | some s =>
      cases hrest : ps.mapM (fun p => MultipartParam.get_size p boundary) with
      | none =>
        rw [List.mapM_cons, hsp, hrest] at hsz
        simp at hsz
      | some l' =>
        rw [List.mapM_cons, hsp, hrest] at hsz
        simp only [Option.pure_def, Option.bind_eq_bind, Option.some_bind,
          Option.some.injEq] at hsz
        subst hsz
        unfold consumeFrom at h
        cases hie : p.iter_encode boundary with
        | error e =>
          rw [hie] at h
          exact absurd h (fun hh => Except.noConfusion hh)
        | ok val =>
          obtain ⟨bs₁, ftr, p'⟩ := val
          rw [hie] at h
          simp only [] at h
          rcases htt : topTrace T curr bs₁ with ⟨tr₁, c'⟩
          rw [htt] at h
          cases hcf : consumeFrom boundary T c' ps with
          | error e =>
            rw [hcf] at h
            exact absurd h (fun hh => Except.noConfusion hh)
          | ok val₂ =>
            obtain ⟨bs₂, tr₂, ps₂, cf₂⟩ := val₂
            rw [hcf] at h
            simp only [Except.ok.injEq, Prod.mk.injEq] at h
            obtain ⟨h1, h2, h3, h4⟩ := h
            have hpval : validParam p = true := hval p (List.mem_cons_self _ _)
            obtain ⟨hlen₁, -, -, hreset₁⟩ := iter_encode_valid_ok hpval hsp hie
            obtain ⟨hlen₂, hcf₂, hchain₂, hlast₂, hreset₂⟩ :=
              ih l' T c' (fun q hq => hval q (List.mem_cons_of_mem _ hq)) hrest hcf
            have hc' : c' = curr + bs₁.flatten.length := by
              have := topTrace_final T bs₁ curr
              rw [htt] at this
              exact this
            have hbs1ne : bs₁ ≠ [] := by
              intro hnil
              rw [hnil] at hlen₁
              simp at hlen₁
              have := get_size_pos hsp
              omega
            have htr₁last : tr₁.getLast? = some (c', T) := by
              have := topTrace_last T bs₁ curr hbs1ne
              rw [htt] at this
              exact this
            have htr₁chain : List.Chain' (fun x y => x.1 ≤ y.1) ((curr, T) :: tr₁) := by
              have := topTrace_chain T bs₁ curr
              rw [htt] at this
              exact this
            have hflat : bs.flatten.length = (s :: l').sum + boundary.length + 6 := by
              rw [← h1]
              simp only [List.flatten_append, List.length_append, List.sum_cons]
              omega
            have htr₂ne : tr₂ ≠ [] := by
              intro hnil
              rw [hnil] at hlast₂
              exact Option.noConfusion hlast₂
            refine ⟨hflat, ?_, ?_, ?_, ?_⟩
            · rw [← h4, hcf₂, hflat, hc']
              rw [← h1] at hflat
              simp only [List.flatten_append, List.length_append] at hflat
              omega
            · rw [← h2]
              exact chain_le_glue tr₁ (curr, T) (c', T) tr₂ htr₁chain htr₁last hchain₂
            · rw [← h2, ← h4]
              rw [List.getLast?_append_of_ne_nil _ htr₂ne]
              exact hlast₂
            · rw [← h3]
              unfold resetParams
              rw [hreset₁, hreset₂]

/-! ### Header formatter -/

theorem encode_and_quote_ascii (b : Bytes) : ∀ x ∈ encode_and_quote b, x < 128 := by
  intro x hx
  rw [encode_and_quote, List.mem_flatten] at hx
  obtain ⟨l, hl, hxl⟩ := hx
  rw [List.mem_map] at hl
  obtain ⟨c, hc, rfl⟩ := hl
  unfold quoteByte at hxl
  split_ifs at hxl with h1 h2
  · simp at hxl
    omega
  · simp at hxl
    omega
  · simp at hxl
    rcases hxl with rfl | rfl | rfl
    · omega
    · unfold hexDigit
      have : c / 16 % 16 < 16 := Nat.mod_lt _ (by omega)
      split_ifs <;> omega
    · unfold hexDigit
      have : c % 16 < 16 := Nat.mod_lt _ (by omega)
      split_ifs <;> omega

/-- The function `encode_hdr` is `renderHeaderSpec` applied to the quote-plus-encoded
boundary: same three header lines, CRLF-joined, CRLF-CRLF-terminated. -/
theorem encode_hdr_eq_spec (p : MultipartParam) (boundary : Bytes) :
    p.encode_hdr boundary = renderHeaderSpec p (encode_and_quote boundary) := by
  unfold MultipartParam.encode_hdr renderHeaderSpec dispositionValue ctypeValue
  simp [List.intercalate, List.intersperse, List.append_assoc]

theorem ascii_append {a b : Bytes} (ha : ∀ x ∈ a, x < 128) (hb : ∀ x ∈ b, x < 128) :
    ∀ x ∈ a ++ b, x < 128 := by
  intro x hx
  rcases List.mem_append.mp hx with h | h
  · exact ha x h
  · exact hb x h

theorem encode_hdr_ascii (p : MultipartParam) (boundary : Bytes)
    (hname : ∀ x ∈ p.name, x < 128)
    (hfn : ∀ fn, p.filename = some fn → ∀ x ∈ fn, x < 128)
    (hft : ∀ t, p.filetype = some t → ∀ x ∈ t, x < 128) :
    ∀ x ∈ p.encode_hdr boundary, x < 128 := by
  rw [encode_hdr_eq_spec]
  unfold renderHeaderSpec
  have hq := encode_and_quote_ascii boundary
  have hcrlf : ∀ x ∈ crlf, x < 128 := by decide
  have hdisp : ∀ x ∈ dispositionValue p, x < 128 := by
    unfold dispositionValue
    cases hpf : p.filename with
    | none => exact ascii_append (ascii_append (by decide) hname) (by decide)
    | some fn =>
      simp only []
      by_cases hfe : fn.isEmpty = true
      · rw [if_pos hfe]
        exact ascii_append (ascii_append (by decide) hname) (by decide)
      · rw [if_neg hfe]
        exact ascii_append (ascii_append (ascii_append (ascii_append
          (by decide) hname) (by decide)) (hfn fn hpf)) (by decide)
  have hct : ∀ x ∈ ctypeValue p, x < 128 := by
    unfold ctypeValue
    cases hpt : p.filetype with
    | none => decide
    | some t =>
      simp only []
      by_cases hte : t.isEmpty = true
      · rw [if_pos hte]
        decide
      · rw [if_neg hte]
        exact hft t hpt
  exact ascii_append (ascii_append (ascii_append (ascii_append (ascii_append
    (ascii_append (ascii_append (ascii_append (ascii_append (by decide) hq) hcrlf)
    (by decide)) hdisp) hcrlf) (by decide)) hct) hcrlf) hcrlf

/-! ### Claim theorems -/

/-- C2: `get_size` equals `len(encode_hdr(field, boundary)) + 2 + known_size`
whenever a size is recorded (Stream fields), and `len(encode_hdr) + 2 +` the
UTF-8 byte length of the text value for Inline fields (no recorded size); and
`get_body_size` is the sum of the per-field sizes plus `len(boundary) + 6`. -/
theorem C2_field_and_body_size (boundary : Bytes) :
    (∀ (p : MultipartParam) (n : Nat), p.filesize = some n →
      p.get_size boundary = some ((p.encode_hdr boundary).length + 2 + n)) ∧
    (∀ (p : MultipartParam) (v : Bytes), p.filesize = none → p.value = some v →
      p.get_size boundary = some ((p.encode_hdr boundary).length + 2 + v.length)) ∧
    (∀ (params : List MultipartParam) (l : List Nat),
      params.mapM (fun q => MultipartParam.get_size q boundary) = some l →
      get_body_size params boundary = some (l.sum + boundary.length + 6)) := by
  refine ⟨?_, ?_, ?_⟩
  · intro p n h
    unfold MultipartParam.get_size
    rw [h]
  · intro p v h hv
    unfold MultipartParam.get_size
    rw [h, hv]
  · intro params l h
    unfold get_body_size
    rw [h]
    rfl

theorem C2_witness :
    (exStream.filesize = some 3 ∧
      exStream.get_size exBoundary =
        some ((exStream.encode_hdr exBoundary).length + 2 + 3)) ∧
    (exInline.filesize = none ∧ exInline.value = some (strB "v") ∧
      exInline.get_size exBoundary =
        some ((exInline.encode_hdr exBoundary).length + 2 + (strB "v").length)) ∧
    get_body_size exParams exBoundary = some ([93, 95].sum + exBoundary.length + 6) := by
  obtain ⟨h1, h2, h3⟩ := C2_field_and_body_size exBoundary
  refine ⟨⟨rfl, h1 exStream 3 rfl⟩, ⟨rfl, rfl, h2 exInline (strB "v") rfl rfl⟩, ?_⟩
  exact h3 exParams [93, 95] (by decide)

/-- C4: an Inline field whose text contains a line exactly equal to
`--boundary` (the line-anchored search succeeds on its UTF-8 bytes) makes
both `encode` and `iter_encode` fail with the boundary-collision error; the
failing `Except` result carries no yielded blocks, so no body bytes are
produced. -/
theorem C4_inline_collision (p : MultipartParam) (boundary v : Bytes)
    (hv : p.value = some v)
    (hls : lineSearch (strB "--" ++ boundary) v = true) :
    p.encode boundary = .error .boundaryCollision ∧
    p.iter_encode boundary = .error .boundaryCollision :=
  ⟨encode_inline_err p boundary v hv hls, iter_encode_inline_err p boundary v hv hls⟩

theorem C4_witness :
    MultipartParam.encode
        { name := strB "n", value := some (strB "x\n--b\ny") } exBoundary =
      .error .boundaryCollision ∧
    MultipartParam.iter_encode
        { name := strB "n", value := some (strB "x\n--b\ny") } exBoundary =
      .error .boundaryCollision :=
  C4_inline_collision _ exBoundary (strB "x\n--b\ny") rfl (by decide)

/-- C10: `reset` succeeds as a no-op on an Inline field (value, no source);
on a field with a byte source it rewinds the source to the start; and it
errors exactly when the field has neither a value nor a byte source. -/
theorem C10_reset_semantics (p : MultipartParam) :
    (∀ v, p.value = some v → p.fileobj = none → p.reset = .ok p) ∧
    (∀ f, p.fileobj = some f →
      p.reset = .ok { p with fileobj := some { f with pos := 0 } }) ∧
    (p.reset = .error .resetError ↔ p.value = none ∧ p.fileobj = none) := by
  refine ⟨?_, ?_, ?_, ?_⟩
  · intro v hv hf
    unfold MultipartParam.reset
    rw [hf, hv]
  · intro f hf
    unfold MultipartParam.reset
    rw [hf]
  · intro h
    unfold MultipartParam.reset at h
    cases hf : p.fileobj with
    | some f =>
      rw [hf] at h
      exact absurd h (fun hh => Except.noConfusion hh)
    | none =>
      rw [hf] at h
      cases hv : p.value with
      | some v =>
        rw [hv] at h
        exact absurd h (fun hh => Except.noConfusion hh)
      | none => exact ⟨by simp [hv], by simp [hf]⟩
  · rintro ⟨hv, hf⟩
    unfold MultipartParam.reset
    rw [hf, hv]

theorem C10_witness :
    MultipartParam.reset exInline = .ok exInline ∧
    MultipartParam.reset { exStream with fileobj := some ⟨[[97], [98, 99]], 2⟩ } =
      .ok exStream ∧
    MultipartParam.reset { name := strB "q" } = .error .resetError := by
  refine ⟨(C10_reset_semantics exInline).1 (strB "v") rfl rfl, ?_, ?_⟩
  · exact (C10_reset_semantics _).2.1 ⟨[[97], [98, 99]], 2⟩ rfl
  · exact (C10_reset_semantics { name := strB "q" }).2.2.mpr ⟨rfl, rfl⟩

/-- C3 (counterexample): `encode_hdr` first quote-plus-encodes the boundary,
so for the boundary "a b" the first header line is `--a+b`, not `--a b`: the
output differs from the claimed shape applied to the boundary as given. -/
theorem C3_counterexample :
    MultipartParam.encode_hdr exInline (strB "a b") ≠
      renderHeaderSpec exInline (strB "a b") := by
  decide

/-- C3 (amended): `encode_hdr` produces, in order, the lines
`--{quote_plus(boundary)}` (the claimed `--{boundary}` exactly when quoting
fixes the boundary, e.g. generated hex tokens), the Content-Disposition line
with the filename clause exactly when a filename is present, and the
Content-Type line with the default when absent — CRLF-joined and
CRLF-CRLF-terminated; the result is pure ASCII bytes whenever the
pre-escaped name/filename/content-type are; and it is a pure function of
`(field, boundary)`. -/
theorem C3_amended (p : MultipartParam) (boundary : Bytes)
    (hname : ∀ x ∈ p.name, x < 128)
    (hfn : ∀ fn, p.filename = some fn → ∀ x ∈ fn, x < 128)
    (hft : ∀ t, p.filetype = some t → ∀ x ∈ t, x < 128) :
    p.encode_hdr boundary = renderHeaderSpec p (encode_and_quote boundary) ∧
    ∀ x ∈ p.encode_hdr boundary, x < 128 :=
  ⟨encode_hdr_eq_spec p boundary, encode_hdr_ascii p boundary hname hfn hft⟩

theorem C3_amended_witness :
    MultipartParam.encode_hdr exInline (strB "a b") =
      renderHeaderSpec exInline (encode_and_quote (strB "a b")) ∧
    ∀ x ∈ MultipartParam.encode_hdr exInline (strB "a b"), x < 128 :=
  C3_amended exInline (strB "a b") (by decide)
    (by intro fn h; exact Option.noConfusion h)
    (by intro t h; exact Option.noConfusion h)

/-- C5 (counterexample): with boundary "a b", a Stream field whose data
contains the line `--a b` (the boundary exactly as passed), split across two
consecutive reads, is not flagged: the streamed check searches for the
quote-plus form `--a+b`, so encoding completes without a collision error. -/
theorem C5_counterexample :
    lineSearch (strB "--" ++ strB "a b") (strB "--" ++ strB "a b\nx") = true ∧
    (MultipartParam.iter_encode
        { name := strB "n", value := none, filesize := some 7,
          fileobj := some ⟨[strB "--", strB "a b\nx"], 0⟩ } (strB "a b")).isOk = true := by
  decide

/-- C5 (amended): a Stream field whose body contains a line exactly equal to
`--{quote_plus(boundary)}` — for boundaries unchanged by quoting, exactly the
claimed `--{boundary}` — fails with the boundary-collision error, however the
body is split across reads (in particular when the line spans two consecutive
reads). -/
theorem C5_amended (p : MultipartParam) (boundary : Bytes) (f : FileObj) (n : Nat)
    (hv : p.value = none) (hf : p.fileobj = some f) (hfs : p.filesize = some n)
    (hpos : f.pos = 0) (hmem : [] ∉ f.chunks)
    (hcol : lineSearch (strB "--" ++ encode_and_quote boundary)
      f.chunks.flatten = true) :
    p.iter_encode boundary = .error .boundaryCollision := by
  rw [iter_encode_stream p boundary f n hv hf hfs, hpos, List.drop_zero]
  rw [lineSearch_eq_true_iff] at hcol
  obtain ⟨u, v, huv, hu, hv'⟩ := hcol
  have htlen : 0 < (strB "--" ++ encode_and_quote boundary).length := by
    simp [strB]
  have hdc := drain_collision_of_match (strB "--" ++ encode_and_quote boundary)
    f.chunks [] ((p.encode_hdr boundary).length + 2 + n) (p.encode_hdr boundary).length
    hmem ⟨u, v, by simpa using huv, hu, hv', by simp only [List.length_nil]; omega⟩
  rw [hdc]

theorem C5_amended_witness :
    lineSearch (strB "--" ++ encode_and_quote exBoundary)
      ([strB "-", strB "-b\nx"] : List Bytes).flatten = true ∧
    MultipartParam.iter_encode
        { name := strB "n", value := none, filesize := some 5,
          fileobj := some ⟨[strB "-", strB "-b\nx"], 0⟩ } exBoundary =
      .error .boundaryCollision := by
  refine ⟨by decide, ?_⟩
  exact C5_amended _ exBoundary ⟨[strB "-", strB "-b\nx"], 0⟩ 5 rfl rfl rfl rfl
    (by decide) (by decide)

theorem iter_encode_inline_no_collision (p : MultipartParam) (boundary v : Bytes)
    (hv : p.value = some v)
    (hls : lineSearch (strB "--" ++ boundary) v = false) :
    p.iter_encode boundary ≠ .error .boundaryCollision := by
  cases hfs : p.filesize with
  | some n =>
    simp [MultipartParam.iter_encode, MultipartParam.get_size, hfs, hv,
      MultipartParam.encode, hls]
  | none =>
    simp [MultipartParam.iter_encode, MultipartParam.get_size, hfs, hv,
      MultipartParam.encode, hls]

/-- C6 (counterexample): the stream check is not exactly line-anchored:
with boundary "b", data "X--b\nZW" read as "X--b\nZ" then "W" contains
`--b` only mid-line (no line equals `--b`), yet the encoder raises the
boundary-collision error, because the sliding-window truncation dropped the
"X" that preceded the token. -/
theorem C6_counterexample :
    lineSearch (strB "--" ++ strB "b") (strB "X--b\nZ" ++ strB "W") = false ∧
    occursIn (strB "--" ++ strB "b") (strB "X--b\nZ" ++ strB "W") = true ∧
    MultipartParam.iter_encode
        { name := strB "n", value := none, filesize := some 7,
          fileobj := some ⟨[strB "X--b\nZ", strB "W"], 0⟩ } (strB "b") =
      .error .boundaryCollision := by
  decide

/-- C6 (amended): for Inline fields the check is exactly line-anchored: a
collision error is raised if and only if the value has a line equal to
`--{boundary}` — a mid-line occurrence is not flagged.  For Stream fields the
check is line-anchored on a sliding window: data in which
`--{quote_plus(boundary)}` does not occur even as a substring is never
flagged (and a whole-line occurrence always is, per the C5 theorem), but a
mid-line occurrence can be falsely flagged when the window truncation drops
the preceding context. -/
theorem C6_line_anchored :
    (∀ (p : MultipartParam) (boundary v : Bytes), p.value = some v →
      (p.iter_encode boundary = .error .boundaryCollision ↔
        lineSearch (strB "--" ++ boundary) v = true)) ∧
    (∀ (p : MultipartParam) (boundary : Bytes) (f : FileObj) (n : Nat),
      p.value = none → p.fileobj = some f → p.filesize = some n → f.pos = 0 →
      occursIn (strB "--" ++ encode_and_quote boundary) f.chunks.flatten = false →
      p.iter_encode boundary ≠ .error .boundaryCollision) := by
  constructor
  · intro p boundary v hv
    constructor
    · intro h
      cases hls : lineSearch (strB "--" ++ boundary) v with
      | true => rfl
      | false => exact absurd h (iter_encode_inline_no_collision p boundary v hv hls)
    · intro hls
      exact iter_encode_inline_err p boundary v hv hls
  · intro p boundary f n hv hf hfs hpos hocc
    rw [iter_encode_stream p boundary f n hv hf hfs, hpos, List.drop_zero]
    intro h
    cases hd : drain (strB "--" ++ encode_and_quote boundary)
        ((p.encode_hdr boundary).length + 2 + n)
        (p.encode_hdr boundary).length [] f.chunks with
    | error e =>
      rw [hd] at h
      injection h with he
      rw [he] at hd
      exact drain_sound (strB "--" ++ encode_and_quote boundary) f.chunks.flatten hocc
        f.chunks [] _ _ [] (by simp) hd
    | ok val =>
      rw [hd] at h
      exact Except.noConfusion h

theorem C6_witness :
    (MultipartParam.iter_encode { name := strB "n", value := some (strB "a--b\nc") }
        exBoundary = .error .boundaryCollision ↔
      lineSearch (strB "--" ++ exBoundary) (strB "a--b\nc") = true) ∧
    MultipartParam.iter_encode
        { name := strB "m", value := none, filesize := some 4,
          fileobj := some ⟨[strB "ab", strB "cd"], 0⟩ } exBoundary ≠
      .error .boundaryCollision := by
  constructor
  · exact C6_line_anchored.1 _ exBoundary (strB "a--b\nc") rfl
  · exact C6_line_anchored.2 _ exBoundary ⟨[strB "ab", strB "cd"], 0⟩ 4 rfl rfl rfl rfl
      (by decide)

/-- C7 (counterexample): the retained buffer is
`last_block[-len(encoded_boundary)-2:]`, i.e. the last `len(boundary)+4`
bytes for an unquoted boundary, not the last `len(boundary)+2` bytes: after
one 7-byte read with boundary "b" the buffer holds the last 5 bytes, while
the claim's window would hold the last 3. -/
theorem C7_counterexample :
    drain (strB "--" ++ encode_and_quote (strB "b")) 100 0 []
        [[97, 98, 99, 100, 101, 102, 103]] =
      .ok ([[97, 98, 99, 100, 101, 102, 103], crlf], [(7, 100), (9, 100)],
        [99, 100, 101, 102, 103]) ∧
    specWindow (strB "b") [97, 98, 99, 100, 101, 102, 103] = [101, 102, 103] ∧
    ([99, 100, 101, 102, 103] : Bytes) ≠ [101, 102, 103] := by
  decide

/-- C7 (amended): across a complete run with nonempty reads, the
collision-check buffer retains exactly the last
`len("--" + quote_plus(boundary)) + 2 = len(quote_plus(boundary)) + 4` bytes
seen (everything, while fewer have been read) — a bounded buffer, but two
bytes larger than the claimed `len(boundary) + 2`. -/
theorem C7_window_size (boundary : Bytes) (cs : List Bytes) (total curr : Nat)
    (bs : List Bytes) (tr : List (Nat × Nat)) (lbf : Bytes)
    (hmem : [] ∉ cs)
    (h : drain (strB "--" ++ encode_and_quote boundary) total curr [] cs =
      .ok (bs, tr, lbf)) :
    lbf = cs.flatten.drop
      (cs.flatten.length - ((encode_and_quote boundary).length + 4)) := by
  have hw := drain_final_window (strB "--" ++ encode_and_quote boundary) cs []
    total curr bs tr lbf hmem (by simp) h
  rw [List.nil_append] at hw
  have hlen : (strB "--" ++ encode_and_quote boundary).length + 2 =
      (encode_and_quote boundary).length + 4 := by
    simp only [List.length_append]
    have e1 : (strB "--").length = 2 := rfl
    omega
  rw [hlen] at hw
  exact hw

theorem C7_window_size_witness :
    drain (strB "--" ++ encode_and_quote exBoundary) 9 0 [] [[97, 98], [99, 100, 101, 102, 103]] =
      .ok ([[97, 98], [99, 100, 101, 102, 103], crlf], [(2, 9), (7, 9), (9, 9)],
        [99, 100, 101, 102, 103]) ∧
    [99, 100, 101, 102, 103] =
      ([[97, 98], [99, 100, 101, 102, 103]] : List Bytes).flatten.drop
        (([[97, 98], [99, 100, 101, 102, 103]] : List Bytes).flatten.length -
          ((encode_and_quote exBoundary).length + 4)) := by
  have hd : drain (strB "--" ++ encode_and_quote exBoundary) 9 0 []
      [[97, 98], [99, 100, 101, 102, 103]] =
      .ok ([[97, 98], [99, 100, 101, 102, 103], crlf], [(2, 9), (7, 9), (9, 9)],
        [99, 100, 101, 102, 103]) := by decide
  exact ⟨hd, C7_window_size exBoundary [[97, 98], [99, 100, 101, 102, 103]] 9 0
    _ _ _ (by decide) hd⟩

theorem mkYielder_some {params : List MultipartParam} {boundary : Bytes}
    {y₀ : MultipartYielder} (hmk : mkYielder params boundary = some y₀) :
    ∃ T, get_body_size params boundary = some T ∧
      y₀ = ⟨params, boundary, some 0, 0, T⟩ := by
  unfold mkYielder at hmk
  cases hgb : get_body_size params boundary with
  | none =>
    rw [hgb] at hmk
    exact Option.noConfusion hmk
  | some T =>
    rw [hgb, Option.map_some'] at hmk
    injection hmk with h
    exact ⟨T, rfl, h.symm⟩

theorem get_body_size_some {params : List MultipartParam} {boundary : Bytes} {T : Nat}
    (h : get_body_size params boundary = some T) :
    ∃ l, params.mapM (fun p => MultipartParam.get_size p boundary) = some l ∧
      T = l.sum + boundary.length + 6 := by
  unfold get_body_size at h
  cases hm : params.mapM (fun p => MultipartParam.get_size p boundary) with
  | none =>
    rw [hm] at h
    exact Option.noConfusion h
  | some l =>
    rw [hm, Option.map_some'] at h
    injection h with h
    exact ⟨l, rfl, h.symm⟩

theorem consumeAll_start (params : List MultipartParam) (boundary : Bytes) (T : Nat)
    {bs : List Bytes} {tr : List (Nat × Nat)} {y₁ : MultipartYielder}
    (h : consumeAll ⟨params, boundary, some 0, 0, T⟩ = .ok (bs, tr, y₁)) :
    ∃ ps' cf, consumeFrom boundary T 0 params = .ok (bs, tr, ps', cf) ∧
      y₁ = ⟨ps', boundary, none, cf, T⟩ := by
  unfold consumeAll at h
  simp only [List.drop_zero, List.take_zero, List.nil_append] at h
  cases hcf : consumeFrom boundary T 0 params with
  | error e =>
    rw [hcf] at h
    exact absurd h (fun hh => Except.noConfusion hh)
  | ok v =>
    obtain ⟨bs', tr', ps', cf⟩ := v
    rw [hcf] at h
    simp only [Except.ok.injEq, Prod.mk.injEq] at h
    obtain ⟨h1, h2, h3⟩ := h
    subst h1
    subst h2
    exact ⟨ps', cf, rfl, h3.symm⟩

/-- C1: for every valid field list and boundary, the precomputed total body
size agrees exactly with the byte length of the concatenation of every chunk
a full consumption of the `MultipartYielder` produces, the final
closing-boundary chunk included. -/
theorem C1_size_stream_agreement (params : List MultipartParam) (boundary : Bytes)
    (y₀ : MultipartYielder)
    (hval : ∀ p ∈ params, validParam p = true)
    (hmk : mkYielder params boundary = some y₀)
    {bs : List Bytes} {tr : List (Nat × Nat)} {y₁ : MultipartYielder}
    (h : consumeAll y₀ = .ok (bs, tr, y₁)) :
    some bs.flatten.length = get_body_size params boundary := by
  obtain ⟨T, hgb, rfl⟩ := mkYielder_some hmk
  obtain ⟨l, hm, hT⟩ := get_body_size_some hgb
  obtain ⟨ps', cf, hcf, -⟩ := consumeAll_start params boundary T h
  obtain ⟨hflat, -, -, -, -⟩ := consumeFrom_valid boundary params l T 0 hval hm hcf
  rw [hgb, hflat, hT]

theorem C1_witness :
    ∃ (bs : List Bytes) (tr : List (Nat × Nat)) (y₁ : MultipartYielder),
      consumeAll ⟨exParams, exBoundary, some 0, 0, 195⟩ = .ok (bs, tr, y₁) ∧
      some bs.flatten.length = get_body_size exParams exBoundary := by
  obtain ⟨bs, tr, y₁, h⟩ :
      ∃ bs tr y₁, consumeAll ⟨exParams, exBoundary, some 0, 0, 195⟩ = .ok (bs, tr, y₁) :=
    ⟨_, _, _, rfl⟩
  exact ⟨bs, tr, y₁, h,
    C1_size_stream_agreement exParams exBoundary _ (by decide) (by decide) h⟩

/-- C9: over a completed encoding of valid fields, the per-field progress
callback receives nondecreasing `current` values ending exactly at the
field's total (`get_size`), and the top-level callback receives
nondecreasing `current` values ending exactly at the body total
(`get_body_size`), the closing chunk included. -/
theorem C9_progress_monotone (boundary : Bytes) :
    (∀ (p : MultipartParam) (s : Nat), validParam p = true →
      p.get_size boundary = some s →
      ∀ {bs : List Bytes} {tr : List (Nat × Nat)} {p' : MultipartParam},
        p.iter_encode boundary = .ok (bs, tr, p') →
        List.Chain' (fun x y => x.1 ≤ y.1) tr ∧ tr.getLast? = some (s, s)) ∧
    (∀ (params : List MultipartParam) (y₀ : MultipartYielder),
      (∀ p ∈ params, validParam p = true) →
      mkYielder params boundary = some y₀ →
      ∀ {bs : List Bytes} {tr : List (Nat × Nat)} {y₁ : MultipartYielder},
        consumeAll y₀ = .ok (bs, tr, y₁) →
        List.Chain' (fun x y => x.1 ≤ y.1) tr ∧
        tr.getLast? = some (y₀.total, y₀.total)) := by
  constructor
  · intro p s hval hsz bs tr p' h
    obtain ⟨-, hchain, hlast, -⟩ := iter_encode_valid_ok hval hsz h
    exact ⟨hchain, hlast⟩
  · intro params y₀ hval hmk bs tr y₁ h
    obtain ⟨T, hgb, rfl⟩ := mkYielder_some hmk
    obtain ⟨l, hm, hT⟩ := get_body_size_some hgb
    obtain ⟨ps', cf, hcf, -⟩ := consumeAll_start params boundary T h
    obtain ⟨hflat, hcf₀, hchain, hlast, -⟩ :=
      consumeFrom_valid boundary params l T 0 hval hm hcf
    have hcfT : cf = T := by
      rw [hcf₀, hflat, hT]
      omega
    exact ⟨hchain.tail, by rw [hlast, hcfT]⟩

theorem C9_witness :
    (∃ (bs : List Bytes) (tr : List (Nat × Nat)) (p' : MultipartParam),
      MultipartParam.iter_encode exStream exBoundary = .ok (bs, tr, p') ∧
      List.Chain' (fun x y => x.1 ≤ y.1) tr ∧ tr.getLast? = some (95, 95)) ∧
    (∃ (bs : List Bytes) (tr : List (Nat × Nat)) (y₁ : MultipartYielder),
      consumeAll ⟨exParams, exBoundary, some 0, 0, 195⟩ = .ok (bs, tr, y₁) ∧
      List.Chain' (fun x y => x.1 ≤ y.1) tr ∧ tr.getLast? = some (195, 195)) := by
  constructor
  · obtain ⟨bs, tr, p', h⟩ :
        ∃ bs tr p', MultipartParam.iter_encode exStream exBoundary = .ok (bs, tr, p') :=
      ⟨_, _, _, rfl⟩
    obtain ⟨h1, h2⟩ := (C9_progress_monotone exBoundary).1 exStream 95 (by decide)
      (by decide) h
    exact ⟨bs, tr, p', h, h1, h2⟩
  · obtain ⟨bs, tr, y₁, h⟩ :
        ∃ bs tr y₁, consumeAll ⟨exParams, exBoundary, some 0, 0, 195⟩ = .ok (bs, tr, y₁) :=
      ⟨_, _, _, rfl⟩
    obtain ⟨h1, h2⟩ := (C9_progress_monotone exBoundary).2 exParams
      ⟨exParams, exBoundary, some 0, 0, 195⟩ (by decide) (by decide) h
    exact ⟨bs, tr, y₁, h, h1, h2⟩

/-- C8: after fully consuming a fresh `MultipartYielder` over valid fields,
`reset()` succeeds — restoring position zero, zero progress, and every field
rewound — and a second full consumption yields byte-for-byte the same chunk
sequence (and the same progress trace) as the first. -/
theorem C8_idempotent_replay (params : List MultipartParam) (boundary : Bytes)
    (y₀ : MultipartYielder)
    (hval : ∀ p ∈ params, validParam p = true)
    (hmk : mkYielder params boundary = some y₀)
    {bs : List Bytes} {tr : List (Nat × Nat)} {y₁ : MultipartYielder}
    (h : consumeAll y₀ = .ok (bs, tr, y₁)) :
    ∃ y₂, y₁.reset = .ok y₂ ∧ consumeAll y₂ = .ok (bs, tr, y₁) := by
  obtain ⟨T, hgb, rfl⟩ := mkYielder_some hmk
  obtain ⟨l, hm, hT⟩ := get_body_size_some hgb
  obtain ⟨ps', cf, hcf, hy₁⟩ := consumeAll_start params boundary T h
  obtain ⟨-, -, -, -, hreset⟩ := consumeFrom_valid boundary params l T 0 hval hm hcf
  refine ⟨⟨params, boundary, some 0, 0, T⟩, ?_, ?_⟩
  · rw [hy₁]
    unfold MultipartYielder.reset
    rw [hreset]
  · exact h

theorem C8_witness :
    ∃ (bs : List Bytes) (tr : List (Nat × Nat)) (y₁ y₂ : MultipartYielder),
      consumeAll ⟨exParams, exBoundary, some 0, 0, 195⟩ = .ok (bs, tr, y₁) ∧
      y₁.reset = .ok y₂ ∧ consumeAll y₂ = .ok (bs, tr, y₁) := by
  obtain ⟨bs, tr, y₁, h⟩ :
      ∃ bs tr y₁, consumeAll ⟨exParams, exBoundary, some 0, 0, 195⟩ = .ok (bs, tr, y₁) :=
    ⟨_, _, _, rfl⟩
  obtain ⟨y₂, h1, h2⟩ := C8_idempotent_replay exParams exBoundary
    ⟨exParams, exBoundary, some 0, 0, 195⟩ (by decide) (by decide) h
  exact ⟨bs, tr, y₁, y₂, h, h1, h2⟩
